import Mathlib

/-!
Verification of the TrueSkill rating engine of the dominionstats repository
(src/trueskill/trueskill.py and src/run_trueskill.py) against its
natural-language specification.

The Python code is shallowly embedded: floating point numbers are modelled as
exact rationals (the spec's algebraic claims are stated "exact in natural
parameters"), Python dictionaries keyed by factor objects become association
lists keyed by natural-number factor ids, and operations that can raise a
Python exception (KeyError, ZeroDivisionError, math domain error) return
Option, with none standing for the raised exception.  The transcendental
library functions used by the code (math.sqrt, scipy's normal pdf/cdf/ppf) are
not part of this repository; they enter the model as oracle parameters of type
ℚ → ℚ (respectively ℚ → ℚ → ℚ for the moment functions V and W, which the
source code itself already passes around as function-valued parameters).
-/

namespace Dominionstats

/-- Association-list lookup, modelling a Python dict read d[k]: the first
entry with the given key, none (a KeyError) when absent. -/
def alookup {β : Type} (k : Nat) : List (Nat × β) → Option β
  | [] => none
  | p :: rest => if p.1 = k then some p.2 else alookup k rest

/-- Association-list in-place modification of the entry at key k, modelling a
Python dict write d[k] = f(d[k]) for a key that is present. -/
def amodify {β : Type} (k : Nat) (f : β → β) : List (Nat × β) → List (Nat × β)
  | [] => []
  | p :: rest => (if p.1 = k then (k, f p.2) else p) :: amodify k f rest

/-- The list of keys of an association list. -/
def akeys {β : Type} : List (Nat × β) → List Nat
  | [] => []
  | p :: rest => p.1 :: akeys rest

/-- Gaussian distribution in natural parameters, mirroring class Gaussian of
src/trueskill/trueskill.py: precision pi and precision-adjusted mean tau. -/
@[ext]
structure Gaussian where
  pi : ℚ
  tau : ℚ
deriving DecidableEq, Repr

/-- Gaussian(): the flat Gaussian with pi = 0, tau = 0 (mean 0, infinite
sigma). -/
def Gaussian.flat : Gaussian := ⟨0, 0⟩

/-- Gaussian.__mul__: componentwise addition of natural parameters. -/
def Gaussian.mul (a b : Gaussian) : Gaussian := ⟨a.pi + b.pi, a.tau + b.tau⟩

/-- Gaussian.__div__: componentwise subtraction of natural parameters. -/
def Gaussian.div (a b : Gaussian) : Gaussian := ⟨a.pi - b.pi, a.tau - b.tau⟩

/-- Gaussian(mu=..., sigma=...): pi = sigma ** -2, tau = pi * mu.  Python
raises ZeroDivisionError when sigma = 0, hence the Option. -/
def Gaussian.ofMuSigma (mu sigma : ℚ) : Option Gaussian :=
  if sigma = 0 then none else some ⟨(sigma ^ 2)⁻¹, (sigma ^ 2)⁻¹ * mu⟩

/-- Gaussian.MuSigma: (tau / pi, sqrt (1 / pi)) computed with the square-root
oracle s.  When pi = 0 Python returns (0, float inf); the infinite sigma is
not representable in ℚ, so the model treats that branch (and the negative-pi
math.sqrt domain error) as failure. -/
def Gaussian.muSigma (s : ℚ → ℚ) (g : Gaussian) : Option (ℚ × ℚ) :=
  if g.pi ≤ 0 then none
  else some (g.tau / g.pi, s (1 / g.pi))

/-- Product of a list of Gaussians in natural parameters. -/
def gprod (l : List Gaussian) : Gaussian :=
  l.foldr Gaussian.mul Gaussian.flat

/-- Variable node of the factor graph, mirroring class Variable: the current
marginal and the per-incident-factor messages, as an association list keyed by
factor id (Python keys the dict by factor object identity). -/
structure Variable where
  value : Gaussian
  factors : List (Nat × Gaussian)
deriving DecidableEq, Repr

/-- Variable.GetMessage: dict read self.factors[factor]. -/
def Variable.getMessage (v : Variable) (f : Nat) : Option Gaussian :=
  alookup f v.factors

/-- Overwrite the stored message of factor f (a dict write for a present
key). -/
def Variable.setMessage (v : Variable) (f : Nat) (m : Gaussian) : Variable :=
  ⟨v.value, amodify f (fun _ => m) v.factors⟩

/-- Variable.AttachFactor: self.factors[factor] = Gaussian() — overwrite when
the key is present, insert otherwise. -/
def Variable.attachFactor (v : Variable) (f : Nat) : Variable :=
  if (alookup f v.factors).isSome then v.setMessage f Gaussian.flat
  else ⟨v.value, v.factors ++ [(f, Gaussian.flat)]⟩

/-- Variable.UpdateMessage: value ← value / old_message * message, then store
the new message. -/
def Variable.updateMessage (v : Variable) (f : Nat) (m : Gaussian) : Option Variable := do
  let oldMessage ← v.getMessage f
  pure ⟨(v.value.div oldMessage).mul m, (v.setMessage f m).factors⟩

/-- Variable.UpdateValue: factors[factor] ← value * old_message / self.value,
then self.value ← value. -/
def Variable.updateValue (v : Variable) (f : Nat) (g : Gaussian) : Option Variable := do
  let oldMessage ← v.getMessage f
  pure ⟨g, (v.setMessage f ((g.mul oldMessage).div v.value)).factors⟩

/-- A fresh Variable() with the given factors attached in order. -/
def mkVariable (fs : List Nat) : Variable :=
  fs.foldl Variable.attachFactor ⟨Gaussian.flat, []⟩

/-- One mutation of a variable node: an UpdateMessage or an UpdateValue call
from an attached factor. -/
inductive VOp where
  | umsg (f : Nat) (m : Gaussian)
  | uval (f : Nat) (g : Gaussian)

/-- Apply one operation to a variable node. -/
def applyVOp (v : Variable) : VOp → Option Variable
  | .umsg f m => v.updateMessage f m
  | .uval f g => v.updateValue f g

/-- Run a sequence of UpdateMessage/UpdateValue calls; none as soon as one
call raises (unattached factor). -/
def runVOps (v : Variable) : List VOp → Option Variable
  | [] => some v
  | op :: rest => (applyVOp v op).bind (fun w => runVOps w rest)

/-- The marginal-consistency invariant of a variable node: the marginal equals
the product, in natural parameters, of the stored messages of all attached
factors. -/
def Variable.Consistent (v : Variable) : Prop :=
  v.value = gprod (v.factors.map Prod.snd)

/-- TruncateFactor.Update, with math.sqrt given by the oracle s and the
moment-matching functions V and W exactly as the class stores them
(function-valued fields).  The code performs no precondition check: it
computes c = x.pi − fx.pi, d = x.tau − fx.tau, sqrt_c = sqrt c, evaluates
V and W at (d / sqrt_c, epsilon * sqrt_c) and installs
Gaussian(pi = c / (1 − W), tau = (d + sqrt_c * V) / (1 − W)) via UpdateValue.
none models the Python exceptions: KeyError for a missing message, the
math.sqrt domain error for c < 0, and ZeroDivisionError when sqrt_c = 0 or
W = 1. -/
def truncateUpdate (s : ℚ → ℚ) (V W : ℚ → ℚ → ℚ) (epsilon : ℚ)
    (v : Variable) (fid : Nat) : Option Variable := do
  let x := v.value
  let fx ← v.getMessage fid
  let c := x.pi - fx.pi
  let d := x.tau - fx.tau
  if c < 0 then none
  else
    let sqrt_c := s c
    if sqrt_c = 0 then none
    else
      let arg1 := d / sqrt_c
      let arg2 := epsilon * sqrt_c
      let Vv := V arg1 arg2
      let Wv := W arg1 arg2
      if 1 - Wv = 0 then none
      else v.updateValue fid ⟨c / (1 - Wv), (d + sqrt_c * Vv) / (1 - Wv)⟩

/-- SkillInfo: the constructor computes floor = mu − 3·sigma and
ceil = mu + 3·sigma from the given mu, sigma, gamma. -/
structure SkillInfo where
  mu : ℚ
  sigma : ℚ
  gamma : ℚ
  floor : ℚ
  ceil : ℚ
deriving DecidableEq, Repr

/-- SkillInfo.__init__(mu, sigma, gamma). -/
def SkillInfo.make (mu sigma gamma : ℚ) : SkillInfo :=
  ⟨mu, sigma, gamma, mu - 3 * sigma, mu + 3 * sigma⟩

/-- default_missing_func: SkillInfo(25.0, 25./3, 25./300). -/
def default_missing_func (_ : Nat) : SkillInfo :=
  SkillInfo.make 25 (25 / 3) (25 / 300)

/-- SkillTable: a keyed store of skill records.  The injected missing_func is
passed to each operation rather than stored, keeping the state first-order;
keys are Nat (Python uses strings). -/
structure SkillTable where
  skill_infos : List (Nat × SkillInfo)
deriving DecidableEq, Repr

/-- The insertion half of SkillTable._get_skill_info: if the key is absent,
materialize it via missing_func. -/
def SkillTable.ensure (missing : Nat → SkillInfo) (t : SkillTable) (k : Nat) :
    SkillTable :=
  if (alookup k t.skill_infos).isSome then t
  else ⟨t.skill_infos ++ [(k, missing k)]⟩

/-- SkillTable._get_skill_info: insert-if-missing, then read.  After ensure
the key is always present, so the getD default is never used. -/
def SkillTable.get_skill_info (missing : Nat → SkillInfo) (t : SkillTable)
    (k : Nat) : SkillTable × SkillInfo :=
  let t1 := t.ensure missing k
  (t1, (alookup k t1.skill_infos).getD (missing k))

/-- SkillTable.get_mu. -/
def SkillTable.get_mu (missing : Nat → SkillInfo) (t : SkillTable) (k : Nat) :
    SkillTable × ℚ :=
  let r := t.get_skill_info missing k
  (r.1, r.2.mu)

/-- SkillTable.get_sigma. -/
def SkillTable.get_sigma (missing : Nat → SkillInfo) (t : SkillTable) (k : Nat) :
    SkillTable × ℚ :=
  let r := t.get_skill_info missing k
  (r.1, r.2.sigma)

/-- SkillTable.get_gamma. -/
def SkillTable.get_gamma (missing : Nat → SkillInfo) (t : SkillTable) (k : Nat) :
    SkillTable × ℚ :=
  let r := t.get_skill_info missing k
  (r.1, r.2.gamma)

/-- SkillTable.set_mu: mutate only the mu field of the record (no floor/ceil
recomputation in the source). -/
def SkillTable.set_mu (missing : Nat → SkillInfo) (t : SkillTable) (k : Nat)
    (mu : ℚ) : SkillTable :=
  let t1 := t.ensure missing k
  ⟨amodify k (fun i => { i with mu := mu }) t1.skill_infos⟩

/-- SkillTable.update_floor_and_ceil: recompute ceil then floor from the
current mu and sigma. -/
def SkillTable.update_floor_and_ceil (missing : Nat → SkillInfo)
    (t : SkillTable) (k : Nat) : SkillTable :=
  let t1 := t.ensure missing k
  ⟨amodify k (fun i => { i with ceil := i.mu + 3 * i.sigma, floor := i.mu - 3 * i.sigma }) t1.skill_infos⟩

/-- SkillTable.set_sigma: mutate sigma, then update_floor_and_ceil. -/
def SkillTable.set_sigma (missing : Nat → SkillInfo) (t : SkillTable) (k : Nat)
    (sigma : ℚ) : SkillTable :=
  let t1 := t.ensure missing k
  SkillTable.update_floor_and_ceil missing
    ⟨amodify k (fun i => { i with sigma := sigma }) t1.skill_infos⟩ k

/-- INITIAL_MU = 25.0. -/
def INITIAL_MU : ℚ := 25

/-- INITIAL_SIGMA = INITIAL_MU / 3.0. -/
def INITIAL_SIGMA : ℚ := INITIAL_MU / 3

/-- The three process-wide parameters set by SetParameters. -/
structure TSParams where
  BETA : ℚ
  EPSILON : ℚ
  GAMMA : ℚ
deriving DecidableEq, Repr

/-- SetParameters(beta, epsilon, draw_probability, gamma).  DrawMargin calls
scipy's inverse normal cdf, so it enters as the oracle drawMargin; it is only
consulted when epsilon is None.  The source raises no error on any argument
combination. -/
def SetParameters (drawMargin : ℚ → ℚ → ℚ)
    (beta epsilon draw_probability gamma : Option ℚ) : TSParams :=
  let B : ℚ := match beta with
    | none => INITIAL_SIGMA * 3 / 2
    | some b => b
  let E : ℚ := match epsilon with
    | none =>
      match draw_probability with
      | none => drawMargin (1 / 10) B
      | some p => drawMargin p B
    | some e => e
  let G : ℚ := match gamma with
    | none => INITIAL_SIGMA / 100
    | some g => g
  ⟨B, E, G⟩

/-- Ordering key of one deck as built by update_skills_for_game in
src/run_trueskill.py: (−vp, nturns), with vp forced to −1000 for a resigned
deck and equal to the deck's points otherwise. -/
def deck_key (points : ℤ) (resigned : Bool) (nturns : ℤ) : ℤ × ℤ :=
  (-(if resigned then (-1000 : ℤ) else points), nturns)

/-- Python's default tuple comparison a <= b on int pairs (lexicographic). -/
def keyLe (a b : ℤ × ℤ) : Prop :=
  a.1 < b.1 ∨ (a.1 = b.1 ∧ a.2 ≤ b.2)

/-- Python's default tuple comparison a < b on int pairs (lexicographic). -/
def keyLt (a b : ℤ × ℤ) : Prop :=
  a.1 < b.1 ∨ (a.1 = b.1 ∧ a.2 < b.2)

instance : DecidableRel keyLe := fun a b =>
  inferInstanceAs (Decidable (a.1 < b.1 ∨ (a.1 = b.1 ∧ a.2 ≤ b.2)))

instance : DecidableRel keyLt := fun a b =>
  inferInstanceAs (Decidable (a.1 < b.1 ∨ (a.1 = b.1 ∧ a.2 < b.2)))

instance : IsTotal (ℤ × ℤ) keyLe where
  total := by
    intro a b
    obtain ⟨a1, a2⟩ := a
    obtain ⟨b1, b2⟩ := b
    simp only [keyLe]
    omega

instance : IsTrans (ℤ × ℤ) keyLe where
  trans := by
    intro a b c hab hbc
    obtain ⟨a1, a2⟩ := a
    obtain ⟨b1, b2⟩ := b
    obtain ⟨c1, c2⟩ := c
    simp only [keyLe] at hab hbc ⊢
    omega

/-- Python list.index: index of the first occurrence.  Total here because
results_to_ranks only calls it on members of the list (Python raises
ValueError otherwise). -/
def listIndex {α : Type} [DecidableEq α] (a : α) : List α → Nat
  | [] => 0
  | b :: rest => if b = a then 0 else 1 + listIndex a rest

/-- results_to_ranks from src/run_trueskill.py: rank each result by the index
of the first occurrence of an equal element in the sorted result list.
Python's sorted() is a stable sort by the lexicographic tuple order; since
equal ranks come from equal tuples, insertionSort by keyLe computes the same
list. -/
def results_to_ranks (results : List (ℤ × ℤ)) : List Nat :=
  let sorted_results := List.insertionSort keyLe results
  results.map (fun r => listIndex r sorted_results)

/-- The per-match guard in the driver loop of run_trueskill_openings
(src/run_trueskill.py line 137): update_skills_for_game is invoked iff the
game has at least two decks and the deck at index 1 has at least two turns.
A game is modelled by its list of per-deck turn counts; the short-circuit
guarantees the index is in range whenever it is read. -/
def game_guard (deckTurns : List Nat) : Bool :=
  decide (2 ≤ deckTurns.length) && decide (2 ≤ deckTurns.getD 1 0)

/-- A team result as passed to update_trueskill_team: (list of player names,
contributions, rank); player names are Nat keys. -/
abbrev TeamResult := List Nat × List ℚ × ℤ

/-- The sort key of team_results.sort(key=lambda t: t[2]): ascending rank. -/
def rankLe (a b : TeamResult) : Prop :=
  a.2.2 ≤ b.2.2

instance : DecidableRel rankLe := fun a b =>
  inferInstanceAs (Decidable (a.2.2 ≤ b.2.2))

instance : IsTotal TeamResult rankLe where
  total := fun a b => le_total a.2.2 b.2.2

instance : IsTrans TeamResult rankLe where
  trans := fun _ _ _ hab hbc => le_trans hab hbc

/-- Read a variable's marginal together with its stored message for factor
fid (y = v.value, fy = v.GetMessage(factor)). -/
def readVarMsg (vs : List Variable) (i fid : Nat) : Option (Gaussian × Gaussian) := do
  let v ← vs[i]?
  let m ← v.getMessage fid
  pure (v.value, m)

/-- Apply UpdateMessage to the variable at index i of the pool. -/
def varUpdateMessage (vs : List Variable) (i fid : Nat) (g : Gaussian) :
    Option (List Variable) := do
  let v ← vs[i]?
  let w ← v.updateMessage fid g
  pure (vs.set i w)

/-- Apply UpdateValue to the variable at index i of the pool (PriorFactor.Start
is exactly this with the prior parameter). -/
def varUpdateValue (vs : List Variable) (i fid : Nat) (g : Gaussian) :
    Option (List Variable) := do
  let v ← vs[i]?
  let w ← v.updateValue fid g
  pure (vs.set i w)

/-- LikelihoodFactor.UpdateValue / UpdateMean: read (y, fy) from the source
variable, compute a = 1 / (1 + variance·(y.pi − fy.pi)) and send
G(a·(y.pi − fy.pi), a·(y.tau − fy.tau)) into the destination variable.
UpdateMean is the same formula with the two variables swapped, so both
directions share this definition. -/
def likelihoodStep (variance : ℚ) (vs : List Variable) (srcIdx dstIdx fid : Nat) :
    Option (List Variable) := do
  let yfy ← readVarMsg vs srcIdx fid
  let y := yfy.1
  let fy := yfy.2
  let den := 1 + variance * (y.pi - fy.pi)
  if den = 0 then none
  else
    let a := 1 / den
    varUpdateMessage vs dstIdx fid ⟨a * (y.pi - fy.pi), a * (y.tau - fy.tau)⟩

/-- A SumFactor: the sum variable, the term variables and the coefficients,
all referring into the variable pool; fid is the factor id under which its
messages are stored. -/
structure SumFactor where
  sum : Nat
  terms : List Nat
  coeffs : List ℚ
  fid : Nat

/-- The message computed by SumFactor._InternalUpdate once its denominators
are known nonzero: new_pi = 1 / Σ a_j² / (y_j.pi − fy_j.pi) (the reciprocal
of denomSum) and new_tau = new_pi · Σ a_j (y_j.tau − fy_j.tau) / (y_j.pi −
fy_j.pi); trips is the zipped list of (a_j, (y_j, fy_j)). -/
def sumNewMessage (trips : List (ℚ × Gaussian × Gaussian)) (denomSum : ℚ) : Gaussian :=
  let newPi := 1 / denomSum
  ⟨newPi, newPi *
    (trips.map (fun t => t.1 * (t.2.1.tau - t.2.2.tau) / (t.2.1.pi - t.2.2.pi))).sum⟩

/-- SumFactor._InternalUpdate: send the moment-matched message into the
variable at varIdx; the guards model Python's ZeroDivisionError for a zero
precision difference and for a zero denominator sum. -/
def sumInternalUpdate (vs : List Variable) (fid varIdx : Nat)
    (pairs : List (Gaussian × Gaussian)) (a : List ℚ) : Option (List Variable) :=
  let trips := a.zip pairs
  if trips.any (fun t => decide (t.2.1.pi - t.2.2.pi = 0)) then none
  else
    let denomSum := (trips.map (fun t => t.1 ^ 2 / (t.2.1.pi - t.2.2.pi))).sum
    if denomSum = 0 then none
    else varUpdateMessage vs varIdx fid (sumNewMessage trips denomSum)

/-- SumFactor.UpdateSum. -/
def sumUpdateSum (vs : List Variable) (f : SumFactor) : Option (List Variable) := do
  let pairs ← f.terms.mapM (fun i => readVarMsg vs i f.fid)
  sumInternalUpdate vs f.fid f.sum pairs f.coeffs

/-- SumFactor.UpdateTerm(index): isolate term index as the sum of the other
terms and the factor's sum variable, then apply the internal update to it. -/
def sumUpdateTerm (vs : List Variable) (f : SumFactor) (index : Nat) :
    Option (List Variable) := do
  let bIdx ← f.coeffs[index]?
  if bIdx = 0 then none
  else
    let a := (f.coeffs.eraseIdx index).map (fun bi => -bi / bIdx)
    let a1 := a.insertIdx index (1 / bIdx)
    let v := f.terms.set index f.sum
    let pairs ← v.mapM (fun i => readVarMsg vs i f.fid)
    let tgt ← f.terms[index]?
    sumInternalUpdate vs f.fid tgt pairs a1

/-- TruncateFactor.Update on the variable pool. -/
def truncStep (s : ℚ → ℚ) (V W : ℚ → ℚ → ℚ) (eps : ℚ) (vs : List Variable)
    (i fid : Nat) : Option (List Variable) := do
  let v ← vs[i]?
  let w ← truncateUpdate s V W eps v fid
  pure (vs.set i w)

/-- For each team in order, the pool indices of its players' performance
variables: consecutive slices of sizes starting at the given offset. -/
def sliceIdxs (start : Nat) : List Nat → List (List Nat)
  | [] => []
  | sz :: rest => (List.range sz).map (fun m => start + m) :: sliceIdxs (start + sz) rest

/-- The team index of each player, in flattened player order. -/
def teamIndexPerPlayer (sizes : List Nat) : List Nat :=
  (sizes.enum.map (fun p => List.replicate p.2 p.1)).flatten

/-- The variable pool of update_trueskill_team, with the factors attached at
graph construction: indices 0..n−1 are the skill variables ss (factors:
prior i, likelihood n+i), n..2n−1 the performance variables ps (factors:
likelihood n+i, team sum 2n+j for the player's team j), 2n..2n+k−1 the team
variables ts (factors: team sum 2n+j and the adjacent team-difference factors
2n+k+(j−1), 2n+k+j when they exist), and 2n+k..2n+2k−2 the difference
variables ds (factors: team-difference 2n+k+j and truncation 2n+2k−1+j).
Every message starts flat, as AttachFactor initializes it. -/
def initTeamVars (n k : Nat) (sizes : List Nat) : List Variable :=
  (List.range n).map
      (fun i => ⟨Gaussian.flat, [(i, Gaussian.flat), (n + i, Gaussian.flat)]⟩)
    ++ (teamIndexPerPlayer sizes).enum.map
      (fun p => ⟨Gaussian.flat,
        [(n + p.1, Gaussian.flat), (2 * n + p.2, Gaussian.flat)]⟩)
    ++ (List.range k).map
      (fun j => ⟨Gaussian.flat,
        [(2 * n + j, Gaussian.flat)]
          ++ (if 0 < j then [(2 * n + k + (j - 1), Gaussian.flat)] else [])
          ++ (if j + 1 < k then [(2 * n + k + j, Gaussian.flat)] else [])⟩)
    ++ (List.range (k - 1)).map
      (fun j => ⟨Gaussian.flat,
        [(2 * n + k + j, Gaussian.flat), (2 * n + 2 * k - 1 + j, Gaussian.flat)]⟩)

/-- The perf→team SumFactors: team j sums its players' performance variables
with the team's contribution coefficients. -/
def perfToTeamFactors (n : Nat) (sorted : List TeamResult) : List SumFactor :=
  let sizes := sorted.map (fun t => t.1.length)
  ((sliceIdxs n sizes).zip sorted).enum.map
    (fun p => ⟨2 * n + p.1, p.2.1, p.2.2.2.1, 2 * n + p.1⟩)

/-- The team-difference SumFactors: d_j = t_j − t_{j+1} with coefficients
[+1, −1]. -/
def teamDiffFactors (n k : Nat) : List SumFactor :=
  (List.range (k - 1)).map
    (fun j => ⟨2 * n + k + j, [2 * n + j, 2 * n + j + 1], [1, -1], 2 * n + k + j⟩)

/-- Whether each adjacent pair of sorted teams is a draw (equal ranks), which
selects the Vdraw/Wdraw kernels instead of Vwin/Wwin. -/
def truncIsDraw (sorted : List TeamResult) : List Bool :=
  (sorted.zip sorted.tail).map (fun p => decide (p.1.2.2 = p.2.2.2))

/-- update_trueskill_team from src/trueskill/trueskill.py, parameterized by
the square-root oracle s, the four moment-function oracles, the globals BETA
and EPSILON, and the table's missing_func.  The function first sorts the
caller's team_results list in place (so the sorted list is returned as the
caller-visible first component), then builds the factor graph, runs the
scheduled sweep (downward, five fixed-point iterations, upward) and writes
the new (mu, sigma) of every player back into the skill table.  The second
component is none when some numeric update raised (degenerate division,
sqrt domain error) — in Python the exception would propagate out of the
call. -/
def update_trueskill_team (s : ℚ → ℚ) (Vwin Wwin Vdraw Wdraw : ℚ → ℚ → ℚ)
    (BETA EPSILON : ℚ) (missing : Nat → SkillInfo)
    (team_results : List TeamResult) (skill_table : SkillTable) :
    List TeamResult × Option SkillTable :=
  let sorted := List.insertionSort rankLe team_results
  let players := (sorted.map (fun t => t.1)).flatten
  let n := players.length
  let k := sorted.length
  let sizes := sorted.map (fun t => t.1.length)
  let tableAndPriors := players.foldl (fun acc pl =>
      let r1 := SkillTable.get_mu missing acc.1 pl
      let r2 := SkillTable.get_sigma missing r1.1 pl
      let r3 := SkillTable.get_gamma missing r2.1 pl
      (r3.1, acc.2 ++ [Gaussian.ofMuSigma r1.2 (r2.2 + r3.2)]))
    (skill_table, ([] : List (Option Gaussian)))
  let table1 := tableAndPriors.1
  let priors := tableAndPriors.2
  let p2t := perfToTeamFactors n sorted
  let tdiff := teamDiffFactors n k
  let draws := truncIsDraw sorted
  let result : Option SkillTable := do
    let vs1 ← (List.range n).foldlM (fun vs i => do
        let priorOpt ← priors[i]?
        let prior ← priorOpt
        varUpdateValue vs i i prior) (initTeamVars n k sizes)
    let vs2 ← (List.range n).foldlM (fun vs i =>
        likelihoodStep (BETA ^ 2) vs i (n + i) (n + i)) vs1
    let vs3 ← p2t.foldlM (fun vs f => sumUpdateSum vs f) vs2
    let vs4 ← (List.range 5).foldlM (fun vs _ => do
        let vsa ← tdiff.foldlM (fun vs f => sumUpdateSum vs f) vs
        let vsb ← (List.range (k - 1)).foldlM (fun vs j => do
            let isDraw ← draws[j]?
            truncStep s (if isDraw then Vdraw else Vwin)
              (if isDraw then Wdraw else Wwin) EPSILON vs
              (2 * n + k + j) (2 * n + 2 * k - 1 + j)) vsa
        tdiff.foldlM (fun vs f => do
            let vsc ← sumUpdateTerm vs f 0
            sumUpdateTerm vsc f 1) vsb) vs3
    let vs5 ← p2t.foldlM (fun vs f =>
        (List.range f.terms.length).foldlM (fun vsd t => sumUpdateTerm vsd f t) vs) vs4
    let vs6 ← (List.range n).foldlM (fun vs i =>
        likelihoodStep (BETA ^ 2) vs (n + i) i (n + i)) vs5
    players.enum.foldlM (fun tbl p => do
        let sv ← vs6[p.1]?
        let ms ← sv.value.muSigma s
        pure (SkillTable.set_sigma missing
          (SkillTable.set_mu missing tbl p.2 ms.1) p.2 ms.2)) table1
  (sorted, result)

end Dominionstats

namespace Dominionstats

theorem alookup_amodify {β : Type} (k : Nat) (f : β → β) :
    ∀ l : List (Nat × β), alookup k (amodify k f l) = (alookup k l).map f := by
  intro l
  induction l with
  | nil => rfl
  | cons p rest ih =>
    by_cases h : p.1 = k
    · simp [alookup, amodify, h]
    · simp [alookup, amodify, h, ih]

theorem amodify_of_not_mem {β : Type} (k : Nat) (f : β → β) :
    ∀ l : List (Nat × β), k ∉ akeys l → amodify k f l = l := by
  intro l
  induction l with
  | nil => intro _; rfl
  | cons p rest ih =>
    intro hk
    simp only [akeys, List.mem_cons] at hk
    push_neg at hk
    obtain ⟨hk1, hk2⟩ := hk
    have hne : ¬p.1 = k := fun h => hk1 h.symm
    simp [amodify, hne, ih hk2]

theorem alookup_none_of_not_mem {β : Type} (k : Nat) :
    ∀ l : List (Nat × β), k ∉ akeys l → alookup k l = none := by
  intro l
  induction l with
  | nil => intro _; rfl
  | cons p rest ih =>
    intro hk
    simp only [akeys, List.mem_cons] at hk
    push_neg at hk
    obtain ⟨hk1, hk2⟩ := hk
    have hne : ¬p.1 = k := fun h => hk1 h.symm
    simp [alookup, hne, ih hk2]

theorem alookup_isSome_of_mem {β : Type} (k : Nat) :
    ∀ l : List (Nat × β), k ∈ akeys l → (alookup k l).isSome := by
  intro l
  induction l with
  | nil => intro h; simp [akeys] at h
  | cons p rest ih =>
    intro h
    by_cases hp : p.1 = k
    · simp [alookup, hp]
    · simp only [akeys, List.mem_cons] at h
      rcases h with h | h
      · exact absurd h.symm hp
      · simpa [alookup, hp] using ih h

theorem mem_amodify_cases {β : Type} (k : Nat) (f : β → β) :
    ∀ l : List (Nat × β), ∀ p ∈ amodify k f l, p ∈ l ∨ ∃ q ∈ l, p = (k, f q.2) := by
  intro l
  induction l with
  | nil => intro p hp; simp [amodify] at hp
  | cons q rest ih =>
    intro p hp
    simp only [amodify, List.mem_cons] at hp
    rcases hp with hp | hp
    · by_cases hq : q.1 = k
      · rw [if_pos hq] at hp
        exact Or.inr ⟨q, by simp, hp⟩
      · rw [if_neg hq] at hp
        exact Or.inl (by simp [hp])
    · rcases ih p hp with h | ⟨r, hr, hpr⟩
      · exact Or.inl (by simp [h])
      · exact Or.inr ⟨r, by simp [hr], hpr⟩

theorem akeys_amodify {β : Type} (k : Nat) (f : β → β) (l : List (Nat × β)) :
    akeys (amodify k f l) = akeys l := by
  induction l with
  | nil => rfl
  | cons p rest ih =>
    by_cases h : p.1 = k
    · simpa [akeys, amodify, h] using ih
    · simpa [akeys, amodify, h] using ih

theorem sum_amodify {β : Type} (w : β → ℚ) (k : Nat) (f : β → β) :
    ∀ l : List (Nat × β), (akeys l).Nodup → ∀ b, alookup k l = some b →
      ((amodify k f l).map (fun p => w p.2)).sum
        = (l.map (fun p => w p.2)).sum - w b + w (f b) := by
  intro l
  induction l with
  | nil => intro _ b hb; simp [alookup] at hb
  | cons p rest ih =>
    intro hnd b hb
    simp only [akeys, List.nodup_cons] at hnd
    by_cases h : p.1 = k
    · simp only [alookup, if_pos h] at hb
      have hb2 : p.2 = b := by injection hb
      have hrest : amodify k f rest = rest := by
        apply amodify_of_not_mem
        intro hmem
        exact hnd.1 (h ▸ hmem)
      simp only [amodify, if_pos h, hrest, List.map_cons, List.sum_cons, hb2]
      ring
    · simp only [alookup, if_neg h] at hb
      have hrec := ih hnd.2 b hb
      simp only [amodify, if_neg h, List.map_cons, List.sum_cons, hrec]
      ring

theorem gprod_pi : ∀ l : List Gaussian, (gprod l).pi = (l.map Gaussian.pi).sum := by
  intro l
  induction l with
  | nil => rfl
  | cons g rest ih =>
    simp only [gprod, List.foldr_cons, List.map_cons, List.sum_cons] at ih ⊢
    show (Gaussian.mul g _).pi = _
    rw [Gaussian.mul, ih]

theorem gprod_tau : ∀ l : List Gaussian, (gprod l).tau = (l.map Gaussian.tau).sum := by
  intro l
  induction l with
  | nil => rfl
  | cons g rest ih =>
    simp only [gprod, List.foldr_cons, List.map_cons, List.sum_cons] at ih ⊢
    show (Gaussian.mul g _).tau = _
    rw [Gaussian.mul, ih]

/-- C5: for every Gaussian a in natural-parameter form, mul(a, flat) = a and
div(a, a) = flat, both exact in natural parameters: mul adds and div
subtracts the pi and tau components. -/
theorem c5_mul_flat_div_self (a : Gaussian) :
    a.mul Gaussian.flat = a ∧ a.div a = Gaussian.flat := by
  constructor
  · cases a; simp [Gaussian.mul, Gaussian.flat]
  · cases a; simp [Gaussian.div, Gaussian.flat]

/-- C6 counterexample: div can produce a Gaussian with strictly negative
precision: dividing the flat Gaussian (produced by Gaussian()) by the unit
Gaussian (pi = 1, tau = 0) yields pi = −1 < 0, refuting the claimed invariant
that every Gaussian arising from the algebra has pi ≥ 0. -/
theorem c6_div_negative_pi_counterexample :
    (Gaussian.flat.div ⟨1, 0⟩).pi < 0 := by
  show (0 : ℚ) - 1 < 0
  norm_num

/-- C6 amended: div(a, b) subtracts precisions, so its result has
non-negative precision exactly when b.pi ≤ a.pi; the Gaussian type itself
imposes no sign constraint on pi. -/
theorem c6_div_pi_sign (a b : Gaussian) :
    (a.div b).pi = a.pi - b.pi ∧ (0 ≤ (a.div b).pi ↔ b.pi ≤ a.pi) := by
  refine ⟨rfl, ?_⟩
  simp [Gaussian.div, sub_nonneg]

theorem gprod_snd_pi (l : List (Nat × Gaussian)) :
    (gprod (l.map Prod.snd)).pi = (l.map (fun p => p.2.pi)).sum := by
  rw [gprod_pi, List.map_map]
  rfl

theorem gprod_snd_tau (l : List (Nat × Gaussian)) :
    (gprod (l.map Prod.snd)).tau = (l.map (fun p => p.2.tau)).sum := by
  rw [gprod_tau, List.map_map]
  rfl

theorem updateMessage_eq {v : Variable} {f : Nat} {oldm : Gaussian} (m : Gaussian)
    (hm : v.getMessage f = some oldm) :
    v.updateMessage f m
      = some ⟨(v.value.div oldm).mul m, amodify f (fun _ => m) v.factors⟩ := by
  unfold Variable.updateMessage
  rw [hm]
  rfl

theorem updateValue_eq {v : Variable} {f : Nat} {oldm : Gaussian} (g : Gaussian)
    (hm : v.getMessage f = some oldm) :
    v.updateValue f g
      = some ⟨g, amodify f (fun _ => (g.mul oldm).div v.value) v.factors⟩ := by
  unfold Variable.updateValue
  rw [hm]
  rfl

theorem consistent_updateMessage {v w : Variable} {f : Nat} {m : Gaussian}
    (hnd : (akeys v.factors).Nodup) (hc : v.Consistent)
    (h : v.updateMessage f m = some w) : w.Consistent := by
  cases hm : v.getMessage f with
  | none =>
    rw [Variable.updateMessage, hm] at h
    exact absurd h (by simp)
  | some oldm =>
    rw [updateMessage_eq m hm] at h
    obtain rfl := (Option.some.inj h).symm
    have hm' : alookup f v.factors = some oldm := hm
    have hpi := sum_amodify (fun g => g.pi) f (fun _ => m) v.factors hnd oldm hm'
    have htau := sum_amodify (fun g => g.tau) f (fun _ => m) v.factors hnd oldm hm'
    have hcpi : v.value.pi = (v.factors.map (fun p => p.2.pi)).sum := by
      rw [hc, gprod_snd_pi]
    have hctau : v.value.tau = (v.factors.map (fun p => p.2.tau)).sum := by
      rw [hc, gprod_snd_tau]
    show Variable.Consistent ⟨(v.value.div oldm).mul m, amodify f (fun _ => m) v.factors⟩
    unfold Variable.Consistent
    apply Gaussian.ext
    · show v.value.pi - oldm.pi + m.pi = _
      rw [gprod_snd_pi, hpi, hcpi]
    · show v.value.tau - oldm.tau + m.tau = _
      rw [gprod_snd_tau, htau, hctau]

theorem consistent_updateValue {v w : Variable} {f : Nat} {g : Gaussian}
    (hnd : (akeys v.factors).Nodup) (hc : v.Consistent)
    (h : v.updateValue f g = some w) : w.Consistent := by
  cases hm : v.getMessage f with
  | none =>
    rw [Variable.updateValue, hm] at h
    exact absurd h (by simp)
  | some oldm =>
    rw [updateValue_eq g hm] at h
    obtain rfl := (Option.some.inj h).symm
    have hm' : alookup f v.factors = some oldm := hm
    have hpi := sum_amodify (fun x => x.pi) f
      (fun _ => (g.mul oldm).div v.value) v.factors hnd oldm hm'
    have htau := sum_amodify (fun x => x.tau) f
      (fun _ => (g.mul oldm).div v.value) v.factors hnd oldm hm'
    have hcpi : v.value.pi = (v.factors.map (fun p => p.2.pi)).sum := by
      rw [hc, gprod_snd_pi]
    have hctau : v.value.tau = (v.factors.map (fun p => p.2.tau)).sum := by
      rw [hc, gprod_snd_tau]
    show Variable.Consistent
      ⟨g, amodify f (fun _ => (g.mul oldm).div v.value) v.factors⟩
    unfold Variable.Consistent
    apply Gaussian.ext
    · show g.pi = _
      rw [gprod_snd_pi, hpi, ← hcpi]
      show g.pi = v.value.pi - oldm.pi + (g.pi + oldm.pi - v.value.pi)
      ring
    · show g.tau = _
      rw [gprod_snd_tau, htau, ← hctau]
      show g.tau = v.value.tau - oldm.tau + (g.tau + oldm.tau - v.value.tau)
      ring

theorem nodup_applyVOp {v w : Variable} {op : VOp}
    (hnd : (akeys v.factors).Nodup) (h : applyVOp v op = some w) :
    (akeys w.factors).Nodup := by
  cases op with
  | umsg f m =>
    cases hm : v.getMessage f with
    | none =>
      rw [applyVOp, Variable.updateMessage, hm] at h
      exact absurd h (by simp)
    | some oldm =>
      rw [applyVOp, updateMessage_eq m hm] at h
      obtain rfl := (Option.some.inj h).symm
      simpa [akeys_amodify] using hnd
  | uval f g =>
    cases hm : v.getMessage f with
    | none =>
      rw [applyVOp, Variable.updateValue, hm] at h
      exact absurd h (by simp)
    | some oldm =>
      rw [applyVOp, updateValue_eq g hm] at h
      obtain rfl := (Option.some.inj h).symm
      simpa [akeys_amodify] using hnd

theorem consistent_applyVOp {v w : Variable} {op : VOp}
    (hnd : (akeys v.factors).Nodup) (hc : v.Consistent)
    (h : applyVOp v op = some w) : w.Consistent := by
  cases op with
  | umsg f m => exact consistent_updateMessage hnd hc h
  | uval f g => exact consistent_updateValue hnd hc h

theorem akeys_append {β : Type} (l1 l2 : List (Nat × β)) :
    akeys (l1 ++ l2) = akeys l1 ++ akeys l2 := by
  induction l1 with
  | nil => rfl
  | cons p rest ih => simp [akeys, ih]

theorem attachFactor_value (v : Variable) (f : Nat) :
    (v.attachFactor f).value = v.value := by
  unfold Variable.attachFactor
  split
  · rfl
  · rfl

theorem attachFactor_allFlat {v : Variable} (f : Nat)
    (h2 : ∀ p ∈ v.factors, p.2 = Gaussian.flat) :
    ∀ p ∈ (v.attachFactor f).factors, p.2 = Gaussian.flat := by
  unfold Variable.attachFactor
  split
  · intro p hp
    simp only [Variable.setMessage] at hp
    rcases mem_amodify_cases f (fun _ => Gaussian.flat) v.factors p hp with h | ⟨q, _, hpq⟩
    · exact h2 p h
    · rw [hpq]
  · intro p hp
    simp only [List.mem_append, List.mem_singleton] at hp
    rcases hp with hp | hp
    · exact h2 p hp
    · simp [hp]

theorem attachFactor_nodup {v : Variable} (f : Nat)
    (h3 : (akeys v.factors).Nodup) :
    (akeys (v.attachFactor f).factors).Nodup := by
  unfold Variable.attachFactor
  split
  · simpa [Variable.setMessage, akeys_amodify] using h3
  · rename_i hnone
    rw [akeys_append]
    refine List.Nodup.append h3 (List.nodup_singleton f) ?_
    intro a ha hb
    simp only [akeys, List.mem_singleton, List.mem_cons, List.not_mem_nil,
      or_false] at hb
    subst hb
    exact hnone (alookup_isSome_of_mem a v.factors ha)

theorem mkVariable_flat (fs : List Nat) :
    (mkVariable fs).value = Gaussian.flat
      ∧ (∀ p ∈ (mkVariable fs).factors, p.2 = Gaussian.flat)
      ∧ (akeys (mkVariable fs).factors).Nodup := by
  suffices h : ∀ v : Variable, v.value = Gaussian.flat →
      (∀ p ∈ v.factors, p.2 = Gaussian.flat) → (akeys v.factors).Nodup →
      (fs.foldl Variable.attachFactor v).value = Gaussian.flat
        ∧ (∀ p ∈ (fs.foldl Variable.attachFactor v).factors, p.2 = Gaussian.flat)
        ∧ (akeys (fs.foldl Variable.attachFactor v).factors).Nodup by
    exact h ⟨Gaussian.flat, []⟩ rfl (by simp) List.nodup_nil
  induction fs with
  | nil => intro v h1 h2 h3; exact ⟨h1, h2, h3⟩
  | cons f rest ih =>
    intro v h1 h2 h3
    simp only [List.foldl_cons]
    exact ih (v.attachFactor f) (by rw [attachFactor_value, h1])
      (attachFactor_allFlat f h2) (attachFactor_nodup f h3)

theorem mkVariable_consistent (fs : List Nat) : (mkVariable fs).Consistent := by
  obtain ⟨h1, h2, _⟩ := mkVariable_flat fs
  unfold Variable.Consistent
  rw [h1]
  have hall : ∀ l : List (Nat × Gaussian), (∀ p ∈ l, p.2 = Gaussian.flat) →
      gprod (l.map Prod.snd) = Gaussian.flat := by
    intro l
    induction l with
    | nil => intro _; rfl
    | cons p rest ih =>
      intro h
      have hp := h p (by simp)
      have hrest := ih (fun q hq => h q (by simp [hq]))
      simp only [List.map_cons, gprod, List.foldr_cons] at hrest ⊢
      rw [hrest, hp]
      ext <;> simp [Gaussian.mul, Gaussian.flat]
  exact (hall _ h2).symm

theorem runVOps_consistent :
    ∀ (ops : List VOp) (v w : Variable), (akeys v.factors).Nodup → v.Consistent →
      runVOps v ops = some w → w.Consistent := by
  intro ops
  induction ops with
  | nil =>
    intro v w _ hc hrun
    simp only [runVOps, Option.some.injEq] at hrun
    subst hrun; exact hc
  | cons op rest ih =>
    intro v w hnd hc hrun
    simp only [runVOps] at hrun
    cases hstep : applyVOp v op with
    | none => simp [hstep] at hrun
    | some u =>
      simp only [hstep, Option.some_bind] at hrun
      exact ih u w (nodup_applyVOp hnd hstep) (consistent_applyVOp hnd hc hstep) hrun

/-- C1: for every variable with its factors attached (each attachment
initializing that factor's message to the flat Gaussian) and every sequence of
UpdateMessage/UpdateValue calls that completes without a KeyError, the final
marginal value equals the product, in natural parameters, of the stored
messages of all attached factors; each single call preserves this identity. -/
theorem c1_value_eq_message_product (fs : List Nat) (ops : List VOp) (w : Variable)
    (h : runVOps (mkVariable fs) ops = some w) : w.Consistent :=
  runVOps_consistent ops (mkVariable fs) w (mkVariable_flat fs).2.2
    (mkVariable_consistent fs) h

/-- C1 witness: a concrete run — a variable with two attached factors, an
UpdateMessage followed by an UpdateValue — reaching a concrete final state
that satisfies the marginal-consistency invariant. -/
theorem c1_value_eq_message_product_witness :
    runVOps (mkVariable [0, 1]) [VOp.umsg 0 ⟨1, 2⟩, VOp.uval 1 ⟨3, 4⟩]
        = some ⟨⟨3, 4⟩, [(0, ⟨1, 2⟩), (1, ⟨2, 2⟩)]⟩
      ∧ (Variable.mk ⟨3, 4⟩ [(0, ⟨1, 2⟩), (1, ⟨2, 2⟩)]).Consistent :=
  ⟨by norm_num [runVOps, applyVOp, mkVariable, Variable.attachFactor,
      Variable.updateMessage, Variable.updateValue, Variable.getMessage,
      Variable.setMessage, alookup, amodify, Gaussian.mul, Gaussian.div,
      Gaussian.flat],
    c1_value_eq_message_product [0, 1] [VOp.umsg 0 ⟨1, 2⟩, VOp.uval 1 ⟨3, 4⟩]
      ⟨⟨3, 4⟩, [(0, ⟨1, 2⟩), (1, ⟨2, 2⟩)]⟩
      (by norm_num [runVOps, applyVOp, mkVariable, Variable.attachFactor,
        Variable.updateMessage, Variable.updateValue, Variable.getMessage,
        Variable.setMessage, alookup, amodify, Gaussian.mul, Gaussian.div,
        Gaussian.flat])⟩

theorem alookup_append_self {β : Type} (k : Nat) (b : β) :
    ∀ l : List (Nat × β), alookup k l = none → alookup k (l ++ [(k, b)]) = some b := by
  intro l
  induction l with
  | nil => intro _; simp [alookup]
  | cons p rest ih =>
    intro hn
    by_cases hp : p.1 = k
    · rw [alookup, if_pos hp] at hn
      exact absurd hn (by simp)
    · rw [alookup, if_neg hp] at hn
      simpa [alookup, hp] using ih hn

theorem ensure_of_present {missing : Nat → SkillInfo} {t : SkillTable} {k : Nat}
    (h : (alookup k t.skill_infos).isSome) : SkillTable.ensure missing t k = t := by
  unfold SkillTable.ensure
  rw [if_pos h]

theorem ensure_isSome (missing : Nat → SkillInfo) (t : SkillTable) (k : Nat) :
    (alookup k ((SkillTable.ensure missing t k).skill_infos)).isSome := by
  unfold SkillTable.ensure
  by_cases h : (alookup k t.skill_infos).isSome
  · rw [if_pos h]; exact h
  · rw [if_neg h]
    have hn : alookup k t.skill_infos = none := Option.not_isSome_iff_eq_none.mp h
    show (alookup k (t.skill_infos ++ [(k, missing k)])).isSome
    rw [alookup_append_self k (missing k) t.skill_infos hn]
    rfl

/-- C4 counterexample: on a fresh table, set_mu 7 100 overwrites mu but leaves
the floor computed from the old mu = 25 in place: the stored record has
floor = 0 while the claimed invariant demands floor = 100 − 3·(25/3) = 75. -/
theorem c4_set_mu_stale_floor_counterexample :
    alookup 7 ((SkillTable.set_mu default_missing_func ⟨[]⟩ 7 100).skill_infos)
        = some ⟨100, 25 / 3, 25 / 300, 0, 50⟩
      ∧ ¬((0 : ℚ) = 100 - 3 * (25 / 3)) := by
  constructor
  · norm_num [SkillTable.set_mu, SkillTable.ensure, default_missing_func,
      SkillInfo.make, alookup, amodify]
  · norm_num

theorem set_sigma_lookup (missing : Nat → SkillInfo) (t : SkillTable) (k : Nat)
    (sigma : ℚ) :
    alookup k ((SkillTable.set_sigma missing t k sigma).skill_infos)
      = (alookup k ((SkillTable.ensure missing t k).skill_infos)).map
          (fun j => ⟨j.mu, sigma, j.gamma, j.mu - 3 * sigma, j.mu + 3 * sigma⟩) := by
  obtain ⟨j, hj⟩ := Option.isSome_iff_exists.mp (ensure_isSome missing t k)
  have h2 : alookup k (amodify k (fun i => { i with sigma := sigma })
      ((SkillTable.ensure missing t k).skill_infos)) = some { j with sigma := sigma } := by
    rw [alookup_amodify, hj]
    rfl
  have h2some : (alookup k ((SkillTable.mk (amodify k (fun i => { i with sigma := sigma })
      ((SkillTable.ensure missing t k).skill_infos))).skill_infos)).isSome := by
    show (alookup k (amodify k (fun i => { i with sigma := sigma })
      ((SkillTable.ensure missing t k).skill_infos))).isSome
    rw [h2]
    rfl
  show alookup k ((SkillTable.update_floor_and_ceil missing
      (SkillTable.mk (amodify k (fun i => { i with sigma := sigma })
        ((SkillTable.ensure missing t k).skill_infos))) k).skill_infos) = _
  show alookup k (amodify k
      (fun i => { i with ceil := i.mu + 3 * i.sigma, floor := i.mu - 3 * i.sigma })
      ((SkillTable.ensure missing
        (SkillTable.mk (amodify k (fun i => { i with sigma := sigma })
          ((SkillTable.ensure missing t k).skill_infos))) k).skill_infos)) = _
  rw [ensure_of_present h2some]
  show alookup k (amodify k
      (fun i => { i with ceil := i.mu + 3 * i.sigma, floor := i.mu - 3 * i.sigma })
      (amodify k (fun i => { i with sigma := sigma })
        ((SkillTable.ensure missing t k).skill_infos))) = _
  rw [alookup_amodify, h2, hj]
  rfl

/-- C4 amended: the floor/ceil invariant is established by set_sigma (whose
source recomputes both), while set_mu only mutates mu, leaving floor and ceil
exactly as they were after the lookup-or-insert — so the invariant holds after
every set_sigma but not in general after a set_mu that is not followed by a
set_sigma. -/
theorem c4_floor_ceil_after_set_sigma (missing : Nat → SkillInfo)
    (t : SkillTable) (k : Nat) (sigma mu : ℚ) (i : SkillInfo)
    (h : alookup k ((SkillTable.set_sigma missing t k sigma).skill_infos) = some i) :
    (i.floor = i.mu - 3 * i.sigma ∧ i.ceil = i.mu + 3 * i.sigma)
      ∧ alookup k ((SkillTable.set_mu missing t k mu).skill_infos)
          = (alookup k ((SkillTable.ensure missing t k).skill_infos)).map
              (fun j => { j with mu := mu }) := by
  constructor
  · rw [set_sigma_lookup] at h
    rcases hlk : alookup k ((SkillTable.ensure missing t k).skill_infos) with _ | j
    · rw [hlk] at h
      exact absurd h (by simp)
    · rw [hlk] at h
      have hi := Option.some.inj h
      rw [← hi]
      constructor <;> ring
  · show alookup k (amodify k (fun j => { j with mu := mu })
      ((SkillTable.ensure missing t k).skill_infos)) = _
    exact alookup_amodify k (fun j => { j with mu := mu })
      ((SkillTable.ensure missing t k).skill_infos)

/-- C4 witness: on a fresh table, set_sigma 0 1 produces the record
(mu 25, sigma 1, gamma 25/300, floor 22, ceil 28), which satisfies the
invariant, and set_mu 0 9 merely maps mu over the materialized record. -/
theorem c4_floor_ceil_after_set_sigma_witness :
    ((22 : ℚ) = 25 - 3 * 1 ∧ (28 : ℚ) = 25 + 3 * 1)
      ∧ alookup 0 ((SkillTable.set_mu default_missing_func ⟨[]⟩ 0 9).skill_infos)
          = (alookup 0 ((SkillTable.ensure default_missing_func ⟨[]⟩ 0).skill_infos)).map
              (fun j => { j with mu := 9 }) :=
  c4_floor_ceil_after_set_sigma default_missing_func ⟨[]⟩ 0 1 9
    ⟨25, 1, 25 / 300, 22, 28⟩
    (by norm_num [SkillTable.set_sigma, SkillTable.update_floor_and_ceil,
      SkillTable.ensure, default_missing_func, SkillInfo.make, alookup, amodify])

/-- C2 counterexample: a state where the spec's precondition fails — the
marginal is (pi 2, tau 0), the stored message (pi 1, tau 0), so c = 1 > 0,
and the moment function W returns 2, so W* = 2 ≥ 1 — yet Update does not
skip: it installs the degenerate message and changes the marginal to
pi = −1.  The sqrt oracle is evaluated only at c = 1, where the function
q ↦ q agrees with the real square root. -/
theorem c2_truncate_does_not_skip_counterexample :
    ¬(0 < (2 : ℚ) - 1 ∧ (2 : ℚ) < 1)
      ∧ truncateUpdate (fun q => q) (fun _ _ => 0) (fun _ _ => 2) 0
          ⟨⟨2, 0⟩, [(0, ⟨1, 0⟩)]⟩ 0
          = some ⟨⟨-1, 0⟩, [(0, ⟨-2, 0⟩)]⟩
      ∧ (Variable.mk ⟨-1, 0⟩ [(0, ⟨-2, 0⟩)]
          ≠ ⟨⟨2, 0⟩, [(0, ⟨1, 0⟩)]⟩) := by
  refine ⟨by norm_num, ?_, ?_⟩
  · norm_num [truncateUpdate, Variable.getMessage, Variable.updateValue,
      Variable.setMessage, alookup, amodify, Gaussian.mul, Gaussian.div]
  · intro heq
    have hpi : (-1 : ℚ) = 2 := congrArg (fun v => v.value.pi) heq
    norm_num at hpi

/-- C2 amended: TruncateFactor.Update checks no precondition: whenever the
computation is defined at all (message present, c ≥ 0, √c ≠ 0, W* ≠ 1) it
unconditionally installs the truncated marginal
G(pi = c/(1−W*), tau = (d + √c·V*)/(1−W*)) via UpdateValue — also when the
spec's precondition c > 0 ∧ W* < 1 fails. -/
theorem c2_truncate_installs_unconditionally
    (s : ℚ → ℚ) (V W : ℚ → ℚ → ℚ) (eps : ℚ) (v w : Variable) (fid : Nat)
    (fx : Gaussian) (hm : v.getMessage fid = some fx)
    (h : truncateUpdate s V W eps v fid = some w) :
    w.value =
      ⟨(v.value.pi - fx.pi)
          / (1 - W ((v.value.tau - fx.tau) / s (v.value.pi - fx.pi))
              (eps * s (v.value.pi - fx.pi))),
        ((v.value.tau - fx.tau)
            + s (v.value.pi - fx.pi)
              * V ((v.value.tau - fx.tau) / s (v.value.pi - fx.pi))
                  (eps * s (v.value.pi - fx.pi)))
          / (1 - W ((v.value.tau - fx.tau) / s (v.value.pi - fx.pi))
              (eps * s (v.value.pi - fx.pi)))⟩ := by
  unfold truncateUpdate at h
  rw [hm] at h
  simp only [Option.bind_eq_bind, Option.some_bind] at h
  split_ifs at h with h1 h2 h3
  rw [updateValue_eq _ hm] at h
  obtain rfl := (Option.some.inj h).symm
  rfl

/-- C2 amended witness: the concrete state of the counterexample satisfies
the hypotheses of the unconditional-install theorem, and the installed
marginal is the computed truncated Gaussian. -/
theorem c2_truncate_installs_unconditionally_witness :
    (Variable.mk ⟨2, 0⟩ [(0, ⟨1, 0⟩)]).getMessage 0 = some ⟨1, 0⟩
      ∧ truncateUpdate (fun q => q) (fun _ _ => (0 : ℚ)) (fun _ _ => (2 : ℚ)) 0
          ⟨⟨2, 0⟩, [(0, ⟨1, 0⟩)]⟩ 0 = some ⟨⟨-1, 0⟩, [(0, ⟨-2, 0⟩)]⟩
      ∧ (Variable.mk ⟨-1, 0⟩ [(0, ⟨-2, 0⟩)]).value =
          ⟨((2 : ℚ) - 1) / (1 - 2), (((0 : ℚ) - 0) + ((2 : ℚ) - 1) * 0) / (1 - 2)⟩ := by
  have hm : (Variable.mk ⟨2, 0⟩ [(0, ⟨1, 0⟩)]).getMessage 0 = some ⟨1, 0⟩ := by
    norm_num [Variable.getMessage, alookup]
  have hr : truncateUpdate (fun q => q) (fun _ _ => (0 : ℚ)) (fun _ _ => (2 : ℚ)) 0
      ⟨⟨2, 0⟩, [(0, ⟨1, 0⟩)]⟩ 0 = some ⟨⟨-1, 0⟩, [(0, ⟨-2, 0⟩)]⟩ := by
    norm_num [truncateUpdate, Variable.getMessage, Variable.updateValue,
      Variable.setMessage, alookup, amodify, Gaussian.mul, Gaussian.div]
  exact ⟨hm, hr,
    c2_truncate_installs_unconditionally (fun q => q) (fun _ _ => 0) (fun _ _ => 2)
      0 ⟨⟨2, 0⟩, [(0, ⟨1, 0⟩)]⟩ ⟨⟨-1, 0⟩, [(0, ⟨-2, 0⟩)]⟩ 0 ⟨1, 0⟩ hm hr⟩

/-- C9 counterexample: SetParameters called with both epsilon (2) and
draw_probability (1/2) returns normally — no error is surfaced — with
EPSILON = 2 and the draw probability silently ignored (the default beta
25/2 and gamma 1/12 are installed). -/
theorem c9_both_accepted_counterexample :
    SetParameters (fun p b => p * b) none (some 2) (some (1 / 2)) none
      = ⟨25 / 2, 2, 1 / 12⟩ := by
  norm_num [SetParameters, INITIAL_SIGMA, INITIAL_MU]

/-- C9 amended: when both epsilon and draw_probability are supplied,
SetParameters silently uses epsilon and ignores draw_probability: the result
is identical to the call without draw_probability, and EPSILON is exactly the
given epsilon; no error is raised. -/
theorem c9_epsilon_wins_draw_probability_ignored
    (drawMargin : ℚ → ℚ → ℚ) (beta gamma : Option ℚ) (e p : ℚ) :
    SetParameters drawMargin beta (some e) (some p) gamma
        = SetParameters drawMargin beta (some e) none gamma
      ∧ (SetParameters drawMargin beta (some e) (some p) gamma).EPSILON = e := by
  constructor
  · rfl
  · rfl

theorem keyLe_refl (a : ℤ × ℤ) : keyLe a a :=
  Or.inr ⟨rfl, le_refl _⟩

theorem keyLt_irrefl (a : ℤ × ℤ) : ¬keyLt a a := by
  obtain ⟨a1, a2⟩ := a
  simp only [keyLt]
  omega

theorem not_keyLt_of_keyLe {a b : ℤ × ℤ} (h : keyLe a b) : ¬keyLt b a := by
  obtain ⟨a1, a2⟩ := a
  obtain ⟨b1, b2⟩ := b
  simp only [keyLe, keyLt] at h ⊢
  omega

theorem keyLt_of_keyLe_of_ne {a b : ℤ × ℤ} (h : keyLe a b) (hne : a ≠ b) :
    keyLt a b := by
  obtain ⟨a1, a2⟩ := a
  obtain ⟨b1, b2⟩ := b
  simp only [Ne, Prod.mk.injEq, not_and] at hne
  simp only [keyLe, keyLt] at h ⊢
  by_cases h1 : a1 = b1
  · exact Or.inr ⟨h1, lt_of_le_of_ne (by omega) (hne h1)⟩
  · omega

theorem listIndex_sorted_eq_countP (r : ℤ × ℤ) :
    ∀ s : List (ℤ × ℤ), List.Sorted keyLe s → r ∈ s →
      listIndex r s = s.countP (fun x => decide (keyLt x r)) := by
  intro s
  induction s with
  | nil => intro _ hr; simp at hr
  | cons x t ih =>
    intro hs hr
    obtain ⟨hx, ht⟩ := List.sorted_cons.mp hs
    by_cases hxr : x = r
    · subst hxr
      rw [listIndex, if_pos rfl, List.countP_cons]
      have h0 : (decide (keyLt x x) : Bool) = false := by
        simp only [decide_eq_false_iff_not]
        exact keyLt_irrefl x
      have ht0 : t.countP (fun y => decide (keyLt y x)) = 0 := by
        rw [List.countP_eq_zero]
        intro y hy
        simp only [decide_eq_true_eq]
        exact not_keyLt_of_keyLe (hx y hy)
      rw [h0, ht0]
      simp
    · have hrt : r ∈ t := by
        rcases List.mem_cons.mp hr with h | h
        · exact absurd h.symm hxr
        · exact h
      rw [listIndex, if_neg hxr, List.countP_cons]
      have h1 : (decide (keyLt x r) : Bool) = true := by
        simp only [decide_eq_true_eq]
        exact keyLt_of_keyLe_of_ne (hx r hrt) hxr
      rw [h1, ih ht hrt]
      simp [Nat.add_comm]

/-- C3 counterexample: the key list [(0,1), (0,1), (1,1)] has two distinct
keys, but results_to_ranks assigns [0, 0, 2]: rank 1 is skipped after the
tie, so the assigned ranks are not the dense set \x7b0, 1\x7d. -/
theorem c3_ranks_not_dense_counterexample :
    results_to_ranks [((0 : ℤ), (1 : ℤ)), (0, 1), (1, 1)] = [0, 0, 2]
      ∧ 2 ∈ results_to_ranks [((0 : ℤ), (1 : ℤ)), (0, 1), (1, 1)]
      ∧ 1 ∉ results_to_ranks [((0 : ℤ), (1 : ℤ)), (0, 1), (1, 1)] := by
  have h : results_to_ranks [((0 : ℤ), (1 : ℤ)), (0, 1), (1, 1)] = [0, 0, 2] := by
    decide
  refine ⟨h, ?_, ?_⟩ <;> rw [h] <;> simp

/-- C3 amended: results_to_ranks computes standard competition ranks, not
dense ranks: each result receives the number of results strictly below it in
the lexicographic key order.  Equal keys therefore receive equal ranks, but
after a tie of size m the next rank jumps by m, leaving a gap. -/
theorem c3_ranks_are_competition_ranks (results : List (ℤ × ℤ)) :
    results_to_ranks results
      = results.map (fun r => results.countP (fun x => decide (keyLt x r))) := by
  unfold results_to_ranks
  apply List.map_congr_left
  intro r hr
  have hmem : r ∈ List.insertionSort keyLe results :=
    (List.perm_insertionSort keyLe results).mem_iff.mpr hr
  rw [listIndex_sorted_eq_countP r (List.insertionSort keyLe results)
    (List.sorted_insertionSort keyLe results) hmem]
  exact (List.perm_insertionSort keyLe results).countP_eq _

/-- C8 counterexample: a match whose decks have turn counts [1, 2] — two
decks, the first with fewer than two turns — is accepted by the driver guard
(update_skills_for_game is invoked), not rejected: the guard only inspects
the deck at index 1. -/
theorem c8_first_deck_not_checked_counterexample :
    game_guard [1, 2] = true ∧ (1 : Nat) < 2 := by
  constructor
  · decide
  · decide

/-- C8 amended: the driver guard accepts a match iff it has at least two
decks and the deck at index 1 (the second deck) has at least two turns; the
turn counts of the first deck and of any later decks are not inspected. -/
theorem c8_guard_checks_only_second_deck (a b x : Nat) (rest : List Nat) :
    (game_guard (a :: b :: rest) = true ↔ 2 ≤ b)
      ∧ game_guard [] = false ∧ game_guard [x] = false := by
  refine ⟨?_, by decide, ?_⟩
  · simp [game_guard, List.getD]
  · simp [game_guard]

theorem filter_orderedInsert_rank (x : TeamResult) (r : ℤ) :
    ∀ l : List TeamResult,
      (List.orderedInsert rankLe x l).filter (fun t => decide (t.2.2 = r))
        = if x.2.2 = r
          then x :: l.filter (fun t => decide (t.2.2 = r))
          else l.filter (fun t => decide (t.2.2 = r)) := by
  intro l
  induction l with
  | nil =>
    by_cases hx : x.2.2 = r <;> simp [List.orderedInsert, List.filter_cons, hx]
  | cons y t ih =>
    by_cases hle : rankLe x y
    · have hins : List.orderedInsert rankLe x (y :: t) = x :: y :: t := by
        simp [List.orderedInsert, hle]
      rw [hins]
      by_cases hx : x.2.2 = r <;> simp [List.filter_cons, hx]
    · have hyx : y.2.2 < x.2.2 := not_le.mp hle
      have hins : List.orderedInsert rankLe x (y :: t)
          = y :: List.orderedInsert rankLe x t := by
        simp [List.orderedInsert, hle]
      rw [hins, List.filter_cons, ih]
      by_cases hx : x.2.2 = r
      · have hy : ¬(y.2.2 = r) := by omega
        simp [hx, hy, List.filter_cons]
      · simp [hx, List.filter_cons]

theorem insertionSort_rank_stable (r : ℤ) :
    ∀ l : List TeamResult,
      (List.insertionSort rankLe l).filter (fun t => decide (t.2.2 = r))
        = l.filter (fun t => decide (t.2.2 = r)) := by
  intro l
  induction l with
  | nil => rfl
  | cons x t ih =>
    show (List.orderedInsert rankLe x (List.insertionSort rankLe t)).filter _ = _
    rw [filter_orderedInsert_rank, ih, List.filter_cons]
    by_cases hx : x.2.2 = r <;> simp [hx]

/-- C7: update_trueskill_team is a deterministic function of the team-result
list, the initial table, the table's missing policy and the global
parameters (and the numeric oracles): two runs with equal inputs produce
identical results — the same caller-visible sorted list and the same final
table, with identical mu, sigma, gamma, floor and ceil for every key — and
the rank sort is stable: the teams of any given rank r appear in the sorted
list in exactly their caller order. -/
theorem c7_update_team_deterministic
    (s : ℚ → ℚ) (Vw Ww Vd Wd : ℚ → ℚ → ℚ) (BETA EPSILON : ℚ)
    (missing : Nat → SkillInfo) (r : ℤ) (tr1 tr2 : List TeamResult)
    (st1 st2 : SkillTable) (htr : tr1 = tr2) (hst : st1 = st2) :
    update_trueskill_team s Vw Ww Vd Wd BETA EPSILON missing tr1 st1
        = update_trueskill_team s Vw Ww Vd Wd BETA EPSILON missing tr2 st2
      ∧ (List.insertionSort rankLe tr1).filter (fun t => decide (t.2.2 = r))
          = tr1.filter (fun t => decide (t.2.2 = r)) := by
  subst htr
  subst hst
  exact ⟨rfl, insertionSort_rank_stable r tr1⟩

/-- C7 witness: two runs on a concrete two-team match from the empty table
coincide, and the teams of rank 3 keep their caller order in the sorted
list. -/
theorem c7_update_team_deterministic_witness :
    update_trueskill_team (fun q => q) (fun _ _ => 0) (fun _ _ => 2)
          (fun _ _ => 0) (fun _ _ => 2) (25 / 6) 1 default_missing_func
          [([0], [1], 5), ([1], [1], 3)] ⟨[]⟩
        = update_trueskill_team (fun q => q) (fun _ _ => 0) (fun _ _ => 2)
          (fun _ _ => 0) (fun _ _ => 2) (25 / 6) 1 default_missing_func
          [([0], [1], 5), ([1], [1], 3)] ⟨[]⟩
      ∧ (List.insertionSort rankLe [([0], [1], 5), ([1], [1], 3)]).filter
            (fun t => decide (t.2.2 = 3))
          = List.filter (fun t => decide (t.2.2 = 3)) [([0], [1], 5), ([1], [1], 3)] :=
  c7_update_team_deterministic (fun q => q) (fun _ _ => 0) (fun _ _ => 2)
    (fun _ _ => 0) (fun _ _ => 2) (25 / 6) 1 default_missing_func 3
    [([0], [1], 5), ([1], [1], 3)] [([0], [1], 5), ([1], [1], 3)] ⟨[]⟩ ⟨[]⟩ rfl rfl

/-- C10: update_trueskill_team sorts the caller's team_results list in place
as its very first statement: the caller-visible list after the call is the
stable rank-sorted permutation of the original (winner first), not the
original order — witnessed concretely by a two-team list given in reverse
rank order, which comes back permuted. -/
theorem c10_team_results_sorted_in_place
    (s : ℚ → ℚ) (Vw Ww Vd Wd : ℚ → ℚ → ℚ) (BETA EPSILON : ℚ)
    (missing : Nat → SkillInfo) (tr : List TeamResult) (st : SkillTable) :
    (update_trueskill_team s Vw Ww Vd Wd BETA EPSILON missing tr st).1
        = List.insertionSort rankLe tr
      ∧ (List.insertionSort rankLe tr).Perm tr
      ∧ List.Sorted rankLe (List.insertionSort rankLe tr)
      ∧ (update_trueskill_team s Vw Ww Vd Wd BETA EPSILON missing
          [([0], [1], 5), ([1], [1], 3)] ⟨[]⟩).1
          ≠ [([0], [1], 5), ([1], [1], 3)] := by
  refine ⟨rfl, List.perm_insertionSort rankLe tr,
    List.sorted_insertionSort rankLe tr, ?_⟩
  intro h
  have hfst : (update_trueskill_team s Vw Ww Vd Wd BETA EPSILON missing
      [([0], [1], 5), ([1], [1], 3)] ⟨[]⟩).1
      = List.insertionSort rankLe [([0], [1], 5), ([1], [1], 3)] := rfl
  rw [hfst] at h
  have hsort : List.insertionSort rankLe
      [(([0] : List Nat), ([1] : List ℚ), (5 : ℤ)), ([1], [1], 3)]
      = [([1], [1], 3), ([0], [1], 5)] := by
    simp [List.insertionSort, List.orderedInsert, rankLe]
  rw [hsort] at h
  have h3 := congrArg (fun l => l.map (fun t : TeamResult => t.2.2)) h
  simp at h3
end Dominionstats
